import Mathlib

/-!
# cmachine: the Go binding of the native AVM engine

A shallow embedding of `cmachine/machine.go`.  The Go file is a cgo binding:
every method of `Machine` marshals its arguments, calls one function of the
native engine (`C.machineXxx`) on the handle `m.c`, and decodes what comes
back.  The native engine, the value codec (`value.MarshalValue`,
`value.UnmarshalValue`) and the message constructors of `protocol` live
outside this file; they are parameters of the embedding (`Engine`, `Codec`).

The native state is threaded explicitly: a method takes the native world `w`
and returns the world after the call.  A Go panic is an `Except.error`
result, paired with the world the panic leaves behind.
-/

set_option autoImplicit false

namespace cmachine

/-! ## Data model -/

/-- A byte. -/
abbrev Byte := Fin 256

/-- A Go byte slice. -/
abbrev Bytes := List Byte

/-- A Go `[32]byte`. -/
abbrev Hash32 := { l : List Byte // l.length = 32 }

/-- The native handle `unsafe.Pointer` stored in a `Machine`. -/
abbrev Ptr := Nat

/-- Go `type Machine struct { c unsafe.Pointer }`. -/
structure Machine where
  c : Ptr
  deriving DecidableEq, Repr

/-- Go `protocol.TimeBounds`: a pair of bounds, read as `timeBounds[0]` and
`timeBounds[1]`. -/
abbrev TimeBounds := Nat × Nat

/-- The struct the native `machineExecuteAssertion` returns.  A data field is
the bytes found in memory at the pointer; the length next to it is the signed
C `int` handed to `C.GoBytes`.  The counts are C integers, converted to Go
`int` by `int(...)`; `numSteps` is a `uint64_t`. -/
structure RawAssertion where
  outMessageData : Bytes
  outMessageLength : Int
  outMessageCount : Int
  logData : Bytes
  logLength : Int
  logCount : Int
  numSteps : Nat
  deriving DecidableEq, Repr

/-- The struct the native `machineMarshallForProof` returns: the bytes found in
memory at the pointer `data`, and the signed C `int` `length`. -/
structure ByteSlice where
  data : Bytes
  length : Int
  deriving DecidableEq, Repr

/-- The native engine behind the cgo calls of `machine.go`, over a native
world `W`.  A call that can change native state returns the new world;
`machineHash` and `machineMarshallForProof` only read.  A buffer the engine
returns holds at least as many bytes as the length reported with it, when that
length is not negative. -/
structure Engine (W : Type) where
  machineHash : W → Ptr → Hash32
  machineClone : W → Ptr → W × Ptr
  machineSendOnchainMessage : W → Ptr → Bytes → W
  machineDeliverOnchainMessages : W → Ptr → W
  machineSendOffchainMessages : W → Ptr → Bytes → Int → W
  machineExecuteAssertion : W → Ptr → Nat → Nat → Nat → W × RawAssertion
  machineMarshallForProof : W → Ptr → ByteSlice

/-- The functions of `value` and `protocol` that `machine.go` calls.
`MarshalValue v` is the bytes written to the buffer, or the error returned.
`UnmarshalValue rd` reads from the unread bytes `rd` of a reader and gives the
value together with the number of bytes it consumed, or an error. -/
structure Codec (Value Message Err : Type) where
  MarshalValue : Value → Except Err Bytes
  UnmarshalValue : Bytes → Except Err (Value × Nat)
  AsValue : Message → Value
  NewMessageFromValue : Value → Except Err Message

/-- The value a Go panic carries: `panic(err)`, the runtime error of indexing
an empty slice, or the runtime error "gobytes: length out of range". -/
inductive Panic (Err : Type) where
  | err : Err → Panic Err
  | indexOutOfRange : Panic Err
  | gobytesLengthOutOfRange : Panic Err
  deriving DecidableEq, Repr

/-- Go `protocol.Assertion`, as built by `protocol.NewAssertion(afterHash,
numSteps, outMsgs, logs)`. -/
structure Assertion (Value Message : Type) where
  AfterHash : Hash32
  NumSteps : Nat
  OutMsgs : List Message
  Logs : List Value

/-- Go `protocol.NewAssertion`. -/
def NewAssertion {Value Message : Type} (afterHash : Hash32) (numSteps : Nat)
    (outMsgs : List Message) (logs : List Value) : Assertion Value Message :=
  ⟨afterHash, numSteps, outMsgs, logs⟩

/-! ## Integer conversions -/

/-- Go `C.uint64_t(x)` for a signed `x`: sign extension, then reinterpretation
as an unsigned 64-bit integer. -/
def toUint64 (x : Int) : Nat := (x % 2 ^ 64).toNat

/-- Go `uint32(x)` for an unsigned `x`. -/
def toUint32 (x : Nat) : Nat := x % 2 ^ 32

/-- Go `C.int(n)` for a Go `int`: wraps to a signed 32-bit integer. -/
def toCInt (n : Int) : Int := (n + 2 ^ 31) % 2 ^ 32 - 2 ^ 31

/-- The range of a Go `int32`. -/
def isInt32 (x : Int) : Prop := -(2 ^ 31) ≤ x ∧ x < 2 ^ 31

instance (x : Int) : Decidable (isInt32 x) := by
  unfold isInt32; infer_instance

/-! ## The methods of `Machine` -/

section Methods

variable {W Value Message Err : Type}

/-- The cgo helper `C.GoBytes(p, n)` of the Go runtime, with `mem` the bytes in
memory at `p`: it panics with "gobytes: length out of range" when `n` is
negative, and otherwise returns a copy of the first `n` bytes. -/
def GoBytes (mem : Bytes) (n : Int) : Except (Panic Err) Bytes :=
  if n < 0 then .error .gobytesLengthOutOfRange else .ok (mem.take n.toNat)

/-- Go `func (m *Machine) Hash() (ret [32]byte)`. -/
def Hash (E : Engine W) (w : W) (m : Machine) : Hash32 :=
  E.machineHash w m.c

/-- Go `func (m *Machine) Clone() machine.Machine`. -/
def Clone (E : Engine W) (w : W) (m : Machine) : W × Machine :=
  let r := E.machineClone w m.c
  (r.1, ⟨r.2⟩)

/-- Go `func (m *Machine) SendOnchainMessage(msg protocol.Message)`. -/
def SendOnchainMessage (E : Engine W) (C : Codec Value Message Err) (w : W) (m : Machine)
    (msg : Message) : W × Except (Panic Err) Unit :=
  match C.MarshalValue (C.AsValue msg) with
  | .error e => (w, .error (.err e))
  | .ok msgData =>
    match msgData with
    | [] => (w, .error .indexOutOfRange)
    | _ :: _ => (E.machineSendOnchainMessage w m.c msgData, .ok ())

/-- Go `func (m *Machine) DeliverOnchainMessage()`. -/
def DeliverOnchainMessage (E : Engine W) (w : W) (m : Machine) : W :=
  E.machineDeliverOnchainMessages w m.c

/-- The loop of `SendOffchainMessages`: marshal every message's value into
`buf`, in order; stop at the first error. -/
def marshalMsgs (C : Codec Value Message Err) : List Message → Bytes → Except Err Bytes
  | [], buf => .ok buf
  | msg :: rest, buf =>
    match C.MarshalValue (C.AsValue msg) with
    | .error e => .error e
    | .ok bs => marshalMsgs C rest (buf ++ bs)

/-- Go `func (m *Machine) SendOffchainMessages(msgs []protocol.Message)`. -/
def SendOffchainMessages (E : Engine W) (C : Codec Value Message Err) (w : W) (m : Machine)
    (msgs : List Message) : W × Except (Panic Err) Unit :=
  match marshalMsgs C msgs [] with
  | .error e => (w, .error (.err e))
  | .ok msgsData =>
    if msgsData.length > 0 then
      (E.machineSendOffchainMessages w m.c msgsData (toCInt msgs.length), .ok ())
    else
      (w, .ok ())

/-- The loop of `bytesArrayToVals`: `n` iterations left, `rd` the unread bytes
of the reader, `vals` the values appended so far.  Returns the values and the
bytes left unread. -/
def readVals (C : Codec Value Message Err) : Nat → Bytes → List Value →
    Except Err (List Value × Bytes)
  | 0, rd, vals => .ok (vals, rd)
  | n + 1, rd, vals =>
    match C.UnmarshalValue rd with
    | .error e => .error e
    | .ok (val, k) => readVals C n (rd.drop k) (vals ++ [val])

/-- Go `func bytesArrayToVals(data []byte, valCount int) []value.Value`: the loop
`for i := 0; i < valCount; i++` runs `valCount` times, and not at all when
`valCount <= 0`. -/
def bytesArrayToVals (C : Codec Value Message Err) (data : Bytes) (valCount : Int) :
    Except Err (List Value) :=
  match readVals C valCount.toNat data [] with
  | .error e => .error e
  | .ok (vals, _) => .ok vals

/-- The loop of `ExecuteAssertion` turning the decoded values into messages. -/
def valsToMessages (C : Codec Value Message Err) : List Value → List Message →
    Except Err (List Message)
  | [], outMessages => .ok outMessages
  | msgVal :: rest, outMessages =>
    match C.NewMessageFromValue msgVal with
    | .error e => .error e
    | .ok msg => valsToMessages C rest (outMessages ++ [msg])

/-- Go `func (m *Machine) ExecuteAssertion(maxSteps int32, timeBounds
protocol.TimeBounds) *protocol.Assertion`. -/
def ExecuteAssertion (E : Engine W) (C : Codec Value Message Err) (w : W) (m : Machine)
    (maxSteps : Int) (timeBounds : TimeBounds) :
    W × Except (Panic Err) (Assertion Value Message) :=
  let r := E.machineExecuteAssertion w m.c (toUint64 maxSteps)
    (timeBounds.1 % 2 ^ 64) (timeBounds.2 % 2 ^ 64)
  let w1 := r.1
  let assertion := r.2
  match GoBytes assertion.outMessageData assertion.outMessageLength with
  | .error p => (w1, .error p)
  | .ok outMessagesRaw =>
    match GoBytes assertion.logData assertion.logLength with
    | .error p => (w1, .error p)
    | .ok logsRaw =>
      match bytesArrayToVals C outMessagesRaw assertion.outMessageCount with
      | .error e => (w1, .error (.err e))
      | .ok outMessageVals =>
        match valsToMessages C outMessageVals [] with
        | .error e => (w1, .error (.err e))
        | .ok outMessages =>
          match bytesArrayToVals C logsRaw assertion.logCount with
          | .error e => (w1, .error (.err e))
          | .ok logVals =>
            (w1, .ok (NewAssertion (Hash E w1 m) (toUint32 assertion.numSteps) outMessages
              logVals))

/-- Go `func (m *Machine) MarshalForProof() ([]byte, error)`; the error is `none`
for Go `nil`, and the call panics when `C.GoBytes` does. -/
def MarshalForProof (E : Engine W) (w : W) (m : Machine) :
    Except (Panic Err) (Bytes × Option Err) :=
  let rawProof := E.machineMarshallForProof w m.c
  match GoBytes rawProof.data rawProof.length with
  | .error p => .error p
  | .ok bytes => .ok (bytes, none)

end Methods

/-! ## A heap of independent machines -/

section HeapModel

variable {St : Type}

/-- Modelled from the spec: the behaviour of one native machine instance, which
is in the C library behind `cmachine.h` and not in this file.  The spec makes
the hash a pure function of the machine state, and every other operation a
deterministic function of the state it is applied to. -/
structure MachineSem (St : Type) where
  hash : St → Hash32
  sendOnchain : St → Bytes → St
  deliver : St → St
  sendOffchain : St → Bytes → Int → St
  exec : St → Nat → Nat → Nat → St × RawAssertion
  proof : St → ByteSlice

/-- Modelled from the spec: the native heap, one state per handle; handles
below `next` are allocated. -/
structure Heap (St : Type) where
  cells : Ptr → St
  next : Ptr

/-- Modelled from the spec: the native engine of `cmachine.h`, which is not in
this file.  "A machine instance owns its full mutable state exclusively": a
call on a handle reads and writes that handle's state only.  "Cloning a
machine produces an independent instance": `machineClone` allocates a fresh
handle holding a copy of the state. -/
def heapEngine (S : MachineSem St) : Engine (Heap St) where
  machineHash h p := S.hash (h.cells p)
  machineClone h p := (⟨Function.update h.cells h.next (h.cells p), h.next + 1⟩, h.next)
  machineSendOnchainMessage h p data :=
    ⟨Function.update h.cells p (S.sendOnchain (h.cells p) data), h.next⟩
  machineDeliverOnchainMessages h p :=
    ⟨Function.update h.cells p (S.deliver (h.cells p)), h.next⟩
  machineSendOffchainMessages h p data n :=
    ⟨Function.update h.cells p (S.sendOffchain (h.cells p) data n), h.next⟩
  machineExecuteAssertion h p bound t0 t1 :=
    (⟨Function.update h.cells p (S.exec (h.cells p) bound t0 t1).1, h.next⟩,
      (S.exec (h.cells p) bound t0 t1).2)
  machineMarshallForProof h p := S.proof (h.cells p)

end HeapModel

/-- Modelled from the spec: the interpreter states of §4.3, Runnable,
Halted and Errored.  The binding has no call that reads the status. -/
inductive Status where
  | Runnable
  | Halted
  | Errored
  deriving DecidableEq, Repr

/-! ## Operations applied one after another -/

section Ops

variable {W Value Message Err : Type}

/-- A state-changing call on a machine. -/
inductive Op (Message : Type) where
  | sendOnchain (msg : Message)
  | deliver
  | sendOffchain (msgs : List Message)
  | execute (maxSteps : Int) (timeBounds : TimeBounds)
  | clone

/-- The native world after one call on machine `m`, whether the call returned
or panicked. -/
def applyOp (E : Engine W) (C : Codec Value Message Err) (w : W) (m : Machine) :
    Op Message → W
  | .sendOnchain msg => (SendOnchainMessage E C w m msg).1
  | .deliver => DeliverOnchainMessage E w m
  | .sendOffchain msgs => (SendOffchainMessages E C w m msgs).1
  | .execute maxSteps timeBounds => (ExecuteAssertion E C w m maxSteps timeBounds).1
  | .clone => (Clone E w m).1

/-- The native world after a sequence of calls on machine `m`. -/
def applyOps (E : Engine W) (C : Codec Value Message Err) (w : W) (m : Machine) :
    List (Op Message) → W
  | [] => w
  | op :: ops => applyOps E C (applyOp E C w m op) m ops

end Ops

/-! ## What the spec says about decoding -/

section SpecSide

variable {Value Message Err : Type}

/-- The first `n` values decoded one after another from `data`, in the order
they are decoded; `none` when one of the `n` decodes fails. -/
def firstDecoded (C : Codec Value Message Err) : Nat → Bytes → Option (List Value)
  | 0, _ => some []
  | n + 1, data =>
    match C.UnmarshalValue data with
    | .error _ => none
    | .ok (v, k) =>
      match firstDecoded C n (data.drop k) with
      | none => none
      | some vs => some (v :: vs)

/-- The unread bytes after `i` successful decodes from `data`. -/
def streamAfter (C : Codec Value Message Err) : Nat → Bytes → Option Bytes
  | 0, data => some data
  | i + 1, data =>
    match C.UnmarshalValue data with
    | .error _ => none
    | .ok (_, k) => streamAfter C i (data.drop k)

/-- One of the first `n` sequential decodes of `data` fails: some decode
number `i + 1 ≤ n` is reached and returns an error. -/
def decodeFails (C : Codec Value Message Err) (n : Nat) (data : Bytes) : Prop :=
  ∃ i rest e, i < n ∧ streamAfter C i data = some rest ∧ C.UnmarshalValue rest = .error e

/-- One of the first `n` sequential decodes of `data` fails with the error `e`. -/
def decodeFailsWith (C : Codec Value Message Err) (n : Nat) (data : Bytes) (e : Err) : Prop :=
  ∃ i rest, i < n ∧ streamAfter C i data = some rest ∧ C.UnmarshalValue rest = .error e

/-- One of the first `n` values decoded from `data` is rejected by
`NewMessageFromValue`. -/
def messageRejected (C : Codec Value Message Err) (n : Nat) (data : Bytes) : Prop :=
  ∃ vals v e, firstDecoded C n data = some vals ∧ v ∈ vals ∧ C.NewMessageFromValue v = .error e

/-- The list `msgs` holds the messages of the values `vals`, one for one and in
order. -/
def messagesOf (C : Codec Value Message Err) (vals : List Value) (msgs : List Message) : Prop :=
  List.Forall₂ (fun v msg => C.NewMessageFromValue v = .ok msg) vals msgs

/-- The codec law that `UnmarshalValue` reads back exactly one marshalled value
from the front of a byte stream and consumes exactly its bytes. -/
def readsBack (C : Codec Value Message Err) : Prop :=
  ∀ v bs rest, C.MarshalValue v = .ok bs → C.UnmarshalValue (bs ++ rest) = .ok (v, bs.length)

/-- The step bound written as a case split: `maxSteps` itself when it is not
negative, `2^64 + maxSteps` when it is. -/
def stepBound (maxSteps : Int) : Nat :=
  if 0 ≤ maxSteps then maxSteps.toNat else (2 ^ 64 + maxSteps).toNat

end SpecSide

section EngineSide

variable {W : Type}

/-- The struct the engine hands back to `ExecuteAssertion(maxSteps, timeBounds)`
called on machine `m` in world `w`. -/
def engineResult (E : Engine W) (w : W) (m : Machine) (maxSteps : Int) (tb : TimeBounds) :
    RawAssertion :=
  (E.machineExecuteAssertion w m.c (toUint64 maxSteps) (tb.1 % 2 ^ 64) (tb.2 % 2 ^ 64)).2

/-- The native world after the engine's run inside `ExecuteAssertion(maxSteps,
timeBounds)` called on machine `m` in world `w`. -/
def engineWorld (E : Engine W) (w : W) (m : Machine) (maxSteps : Int) (tb : TimeBounds) : W :=
  (E.machineExecuteAssertion w m.c (toUint64 maxSteps) (tb.1 % 2 ^ 64) (tb.2 % 2 ^ 64)).1

/-- The out-message bytes `ExecuteAssertion` decodes: the first
`outMessageLength` bytes of the engine's out-message buffer. -/
def copiedOutMessages (E : Engine W) (w : W) (m : Machine) (maxSteps : Int)
    (tb : TimeBounds) : Bytes :=
  (engineResult E w m maxSteps tb).outMessageData.take
    (engineResult E w m maxSteps tb).outMessageLength.toNat

/-- The log bytes `ExecuteAssertion` decodes: the first `logLength` bytes of the
engine's log buffer. -/
def copiedLogs (E : Engine W) (w : W) (m : Machine) (maxSteps : Int) (tb : TimeBounds) :
    Bytes :=
  (engineResult E w m maxSteps tb).logData.take (engineResult E w m maxSteps tb).logLength.toNat

/-- The engine never executes more steps than the bound it is handed. -/
def respectsBound (E : Engine W) : Prop :=
  ∀ w p bound t0 t1, (E.machineExecuteAssertion w p bound t0 t1).2.numSteps ≤ bound

end EngineSide

/-! ## Sample codec and sample engines -/

/-- Errors of the sample codec. -/
inductive SampleErr where
  | eof
  | badMessage
  deriving DecidableEq, Repr

/-- A one-byte codec: a value is a byte, marshalled as itself; a message is a
number below 255. -/
def sampleCodec : Codec Byte Nat SampleErr where
  MarshalValue v := .ok [v]
  UnmarshalValue rd :=
    match rd with
    | [] => .error .eof
    | b :: _ => .ok (b, 1)
  AsValue msg := Fin.ofNat msg
  NewMessageFromValue v := if v.val = 255 then .error .badMessage else .ok v.val

/-- State of a sample machine: a step counter, a status, and the output its
next run emits. -/
structure SampleState where
  pc : Nat
  status : Status
  script : RawAssertion

/-- A sample machine: its hash is 32 copies of the step counter; a run
executes `min bound script.numSteps` steps. -/
def sampleSem : MachineSem SampleState where
  hash s := ⟨List.replicate 32 (Fin.ofNat s.pc), List.length_replicate _ _⟩
  sendOnchain s _ := ⟨s.pc + 1, s.status, s.script⟩
  deliver s := ⟨s.pc + 1, s.status, s.script⟩
  sendOffchain s _ _ := ⟨s.pc + 1, s.status, s.script⟩
  exec s bound _ _ :=
    (⟨s.pc + min bound s.script.numSteps, s.status, s.script⟩,
      ⟨s.script.outMessageData, s.script.outMessageLength, s.script.outMessageCount,
        s.script.logData, s.script.logLength, s.script.logCount,
        min bound s.script.numSteps⟩)
  proof s := ⟨[Fin.ofNat s.pc], 1⟩

/-- An engine output whose two buffers carry their own lengths. -/
def sampleScript (out : Bytes) (outCount : Int) (logs : Bytes) (logCount : Int)
    (numSteps : Nat) : RawAssertion :=
  ⟨out, out.length, outCount, logs, logs.length, logCount, numSteps⟩

/-- A heap whose every cell holds the same sample state; handles 0 to 3 are
allocated. -/
def sampleHeap (status : Status) (script : RawAssertion) : Heap SampleState :=
  ⟨fun _ => ⟨7, status, script⟩, 4⟩

/-- A native call, with its arguments. -/
inductive Call where
  | clone (p : Ptr)
  | sendOnchain (p : Ptr) (data : Bytes)
  | deliver (p : Ptr)
  | sendOffchain (p : Ptr) (data : Bytes) (count : Int)
  | execute (p : Ptr) (bound t0 t1 : Nat)
  deriving DecidableEq, Repr

/-- An engine whose world is the list of state-changing calls made so far. -/
def recorder : Engine (List Call) where
  machineHash _ _ := ⟨List.replicate 32 0, List.length_replicate _ _⟩
  machineClone log p := (log ++ [.clone p], p + 1)
  machineSendOnchainMessage log p data := log ++ [.sendOnchain p data]
  machineDeliverOnchainMessages log p := log ++ [.deliver p]
  machineSendOffchainMessages log p data n := log ++ [.sendOffchain p data n]
  machineExecuteAssertion log p bound t0 t1 :=
    (log ++ [.execute p bound t0 t1], ⟨[], 0, 0, [], 0, 0, 0⟩)
  machineMarshallForProof _ _ := ⟨[], 0⟩

/-! ## Lemmas on the decoding loops -/

section Lemmas

variable {W Value Message Err : Type}

theorem readVals_of_firstDecoded (C : Codec Value Message Err) (n : Nat) :
    ∀ (rd : Bytes) (acc vs : List Value), firstDecoded C n rd = some vs →
      ∃ rest, readVals C n rd acc = .ok (acc ++ vs, rest) ∧ streamAfter C n rd = some rest := by
  induction n with
  | zero =>
    intro rd acc vs h
    simp only [firstDecoded, Option.some.injEq] at h
    subst h
    exact ⟨rd, by simp [readVals], rfl⟩
  | succ n ih =>
    intro rd acc vs h
    unfold firstDecoded at h
    unfold readVals streamAfter
    cases hu : C.UnmarshalValue rd with
    | error e => simp [hu] at h
    | ok r =>
      obtain ⟨v, k⟩ := r
      simp only [hu] at h
      cases hf : firstDecoded C n (rd.drop k) with
      | none => simp [hf] at h
      | some vs1 =>
        simp only [hf, Option.some.injEq] at h
        subst h
        obtain ⟨rest, h1, h2⟩ := ih (rd.drop k) (acc ++ [v]) vs1 hf
        exact ⟨rest, by simpa using h1, h2⟩

theorem readVals_of_firstDecoded_none (C : Codec Value Message Err) (n : Nat) :
    ∀ (rd : Bytes) (acc : List Value), firstDecoded C n rd = none →
      ∃ e, readVals C n rd acc = .error e := by
  induction n with
  | zero => intro rd acc h; simp [firstDecoded] at h
  | succ n ih =>
    intro rd acc h
    unfold firstDecoded at h
    unfold readVals
    cases hu : C.UnmarshalValue rd with
    | error e => exact ⟨e, rfl⟩
    | ok r =>
      obtain ⟨v, k⟩ := r
      simp only [hu] at h
      cases hf : firstDecoded C n (rd.drop k) with
      | none => exact ih _ _ hf
      | some vs1 => simp [hf] at h

theorem firstDecoded_length (C : Codec Value Message Err) (n : Nat) :
    ∀ (rd : Bytes) (vs : List Value), firstDecoded C n rd = some vs → vs.length = n := by
  induction n with
  | zero => intro rd vs h; simp [firstDecoded] at h; simp [← h]
  | succ n ih =>
    intro rd vs h
    unfold firstDecoded at h
    cases hu : C.UnmarshalValue rd with
    | error e => simp [hu] at h
    | ok r =>
      obtain ⟨v, k⟩ := r
      simp only [hu] at h
      cases hf : firstDecoded C n (rd.drop k) with
      | none => simp [hf] at h
      | some vs1 =>
        simp only [hf, Option.some.injEq] at h
        subst h
        simp [ih _ _ hf]

theorem firstDecoded_none_iff (C : Codec Value Message Err) (n : Nat) :
    ∀ rd : Bytes, firstDecoded C n rd = none ↔ decodeFails C n rd := by
  induction n with
  | zero =>
    intro rd
    simp [firstDecoded, decodeFails]
  | succ n ih =>
    intro rd
    unfold firstDecoded
    cases hu : C.UnmarshalValue rd with
    | error e =>
      simp only [true_iff]
      exact ⟨0, rd, e, Nat.succ_pos n, rfl, hu⟩
    | ok r =>
      obtain ⟨v, k⟩ := r
      simp only
      constructor
      · intro h
        have hf : firstDecoded C n (rd.drop k) = none := by
          cases hf : firstDecoded C n (rd.drop k) with
          | none => rfl
          | some vs1 => simp [hf] at h
        obtain ⟨i, rest, e, hi, hs, he⟩ := (ih _).1 hf
        exact ⟨i + 1, rest, e, Nat.succ_lt_succ hi, by simp [streamAfter, hu, hs], he⟩
      · rintro ⟨i, rest, e, hi, hs, he⟩
        cases i with
        | zero =>
          simp only [streamAfter, Option.some.injEq] at hs
          subst hs
          rw [hu] at he
          cases he
        | succ i =>
          simp only [streamAfter, hu] at hs
          have hf := (ih (rd.drop k)).2 ⟨i, rest, e, Nat.lt_of_succ_lt_succ hi, hs, he⟩
          simp [hf]

/-- The result of `bytesArrayToVals` is the list of the first `valCount`
values decoded in order, and an error exactly when one of these decodes fails. -/
theorem bytesArrayToVals_ok_iff (C : Codec Value Message Err) (data : Bytes) (valCount : Int)
    (vals : List Value) :
    bytesArrayToVals C data valCount = .ok vals ↔
      firstDecoded C valCount.toNat data = some vals := by
  unfold bytesArrayToVals
  cases hf : firstDecoded C valCount.toNat data with
  | none =>
    obtain ⟨e, he⟩ := readVals_of_firstDecoded_none C _ data [] hf
    simp [he]
  | some vs =>
    obtain ⟨rest, h1, _⟩ := readVals_of_firstDecoded C _ data [] vs hf
    simp only [List.nil_append] at h1
    simp [h1]

theorem bytesArrayToVals_error_iff (C : Codec Value Message Err) (data : Bytes)
    (valCount : Int) :
    (∃ e, bytesArrayToVals C data valCount = .error e) ↔
      decodeFails C valCount.toNat data := by
  rw [← firstDecoded_none_iff]
  cases hb : bytesArrayToVals C data valCount with
  | error e =>
    cases hf : firstDecoded C valCount.toNat data with
    | none => simp
    | some vs =>
      rw [(bytesArrayToVals_ok_iff C data valCount vs).2 hf] at hb
      cases hb
  | ok vals =>
    rw [(bytesArrayToVals_ok_iff C data valCount vals).1 hb]
    simp

theorem valsToMessages_ok (C : Codec Value Message Err) :
    ∀ (vals : List Value) (acc msgs : List Message),
      valsToMessages C vals acc = .ok msgs →
        ∃ ms, msgs = acc ++ ms ∧ messagesOf C vals ms := by
  intro vals
  induction vals with
  | nil =>
    intro acc msgs h
    simp only [valsToMessages, Except.ok.injEq] at h
    exact ⟨[], by simp [h], List.Forall₂.nil⟩
  | cons v rest ih =>
    intro acc msgs h
    unfold valsToMessages at h
    cases hn : C.NewMessageFromValue v with
    | error e => simp [hn] at h
    | ok msg =>
      simp only [hn] at h
      obtain ⟨ms, h1, h2⟩ := ih _ _ h
      exact ⟨msg :: ms, by simp [h1], List.Forall₂.cons hn h2⟩

theorem valsToMessages_error_iff (C : Codec Value Message Err) :
    ∀ (vals : List Value) (acc : List Message),
      (∃ e, valsToMessages C vals acc = .error e) ↔
        ∃ v e, v ∈ vals ∧ C.NewMessageFromValue v = .error e := by
  intro vals
  induction vals with
  | nil => intro acc; simp [valsToMessages]
  | cons v rest ih =>
    intro acc
    unfold valsToMessages
    cases hn : C.NewMessageFromValue v with
    | error e =>
      simp only [Except.error.injEq, exists_eq', true_iff]
      exact ⟨v, e, List.mem_cons_self _ _, hn⟩
    | ok msg =>
      simp only
      rw [ih]
      constructor
      · rintro ⟨x, e, hx, he⟩
        exact ⟨x, e, List.mem_cons_of_mem _ hx, he⟩
      · rintro ⟨x, e, hx, he⟩
        rcases List.mem_cons.1 hx with rfl | hx
        · rw [hn] at he; cases he
        · exact ⟨x, e, hx, he⟩

theorem toUint64_of_nonneg (x : Int) (hrange : isInt32 x) (hpos : 0 ≤ x) :
    toUint64 x = x.toNat := by
  unfold toUint64
  unfold isInt32 at hrange
  rw [Int.emod_eq_of_lt hpos (by omega)]

theorem toUint64_of_neg (x : Int) (hrange : isInt32 x) (hneg : x < 0) :
    toUint64 x = (2 ^ 64 + x).toNat := by
  unfold toUint64
  unfold isInt32 at hrange
  congr 1
  rw [← Int.add_mul_emod_self_left x (2 ^ 64) 1, Int.emod_eq_of_lt (by omega) (by omega)]
  omega

theorem readVals_error_iff (C : Codec Value Message Err) (n : Nat) :
    ∀ (rd : Bytes) (acc : List Value) (e : Err),
      readVals C n rd acc = .error e ↔ decodeFailsWith C n rd e := by
  induction n with
  | zero =>
    intro rd acc e
    simp [readVals, decodeFailsWith]
  | succ n ih =>
    intro rd acc e
    unfold readVals
    cases hu : C.UnmarshalValue rd with
    | error e1 =>
      simp only [Except.error.injEq]
      constructor
      · intro h
        subst h
        exact ⟨0, rd, Nat.succ_pos n, rfl, hu⟩
      · rintro ⟨i, rest, _, hs, he⟩
        cases i with
        | zero =>
          simp only [streamAfter, Option.some.injEq] at hs
          subst hs
          rw [hu] at he
          exact Except.error.inj he
        | succ i => simp [streamAfter, hu] at hs
    | ok r =>
      obtain ⟨v, k⟩ := r
      simp only
      rw [ih]
      constructor
      · rintro ⟨i, rest, hi, hs, he⟩
        exact ⟨i + 1, rest, Nat.succ_lt_succ hi, by simp [streamAfter, hu, hs], he⟩
      · rintro ⟨i, rest, hi, hs, he⟩
        cases i with
        | zero =>
          simp only [streamAfter, Option.some.injEq] at hs
          subst hs
          rw [hu] at he
          cases he
        | succ i =>
          simp only [streamAfter, hu] at hs
          exact ⟨i, rest, Nat.lt_of_succ_lt_succ hi, hs, he⟩

/-- The error `bytesArrayToVals` panics with is the error of the failing
decode. -/
theorem bytesArrayToVals_error_with_iff (C : Codec Value Message Err) (data : Bytes)
    (valCount : Int) (e : Err) :
    bytesArrayToVals C data valCount = .error e ↔ decodeFailsWith C valCount.toNat data e := by
  rw [← readVals_error_iff C valCount.toNat data []]
  unfold bytesArrayToVals
  cases readVals C valCount.toNat data [] with
  | error e1 => simp
  | ok r => simp

theorem GoBytes_of_neg (mem : Bytes) (n : Int) (h : n < 0) :
    (GoBytes mem n : Except (Panic Err) Bytes) = .error .gobytesLengthOutOfRange := by
  simp [GoBytes, h]

theorem GoBytes_of_nonneg (mem : Bytes) (n : Int) (h : 0 ≤ n) :
    (GoBytes mem n : Except (Panic Err) Bytes) = .ok (mem.take n.toNat) := by
  simp [GoBytes, not_lt.2 h]

/-- The world `ExecuteAssertion` leaves is the one the engine's run produced,
whether it returns or panics. -/
theorem ExecuteAssertion_world (E : Engine W) (C : Codec Value Message Err) (w : W)
    (m : Machine) (maxSteps : Int) (tb : TimeBounds) :
    (ExecuteAssertion E C w m maxSteps tb).1 =
      (E.machineExecuteAssertion w m.c (toUint64 maxSteps) (tb.1 % 2 ^ 64) (tb.2 % 2 ^ 64)).1 := by
  unfold ExecuteAssertion
  simp only
  split
  · rfl
  · split
    · rfl
    · split
      · rfl
      · split
        · rfl
        · split <;> rfl

/-- A negative buffer length makes `ExecuteAssertion` panic in `C.GoBytes`. -/
theorem ExecuteAssertion_of_neg_length (E : Engine W) (C : Codec Value Message Err) (w : W)
    (m : Machine) (maxSteps : Int) (tb : TimeBounds)
    (h : (engineResult E w m maxSteps tb).outMessageLength < 0 ∨
      (engineResult E w m maxSteps tb).logLength < 0) :
    (ExecuteAssertion E C w m maxSteps tb).2 = .error .gobytesLengthOutOfRange := by
  unfold engineResult at h
  unfold ExecuteAssertion
  simp only
  generalize E.machineExecuteAssertion w m.c (toUint64 maxSteps) (tb.1 % 2 ^ 64)
    (tb.2 % 2 ^ 64) = r at h ⊢
  by_cases h1 : r.2.outMessageLength < 0
  · rw [GoBytes_of_neg _ _ h1]
  · rw [GoBytes_of_nonneg _ _ (not_lt.1 h1)]
    have h2 : r.2.logLength < 0 := h.resolve_left h1
    simp only
    rw [GoBytes_of_neg _ _ h2]

/-- With both buffer lengths not negative, the result of `ExecuteAssertion` is
decided by the three decoding steps on the copied bytes. -/
theorem ExecuteAssertion_of_lengths (E : Engine W) (C : Codec Value Message Err) (w : W)
    (m : Machine) (maxSteps : Int) (tb : TimeBounds)
    (h1 : 0 ≤ (engineResult E w m maxSteps tb).outMessageLength)
    (h2 : 0 ≤ (engineResult E w m maxSteps tb).logLength) :
    (ExecuteAssertion E C w m maxSteps tb).2 =
      match bytesArrayToVals C (copiedOutMessages E w m maxSteps tb)
        (engineResult E w m maxSteps tb).outMessageCount with
      | .error e => .error (.err e)
      | .ok outVals =>
        match valsToMessages C outVals [] with
        | .error e => .error (.err e)
        | .ok msgs =>
          match bytesArrayToVals C (copiedLogs E w m maxSteps tb)
            (engineResult E w m maxSteps tb).logCount with
          | .error e => .error (.err e)
          | .ok logVals =>
            .ok (NewAssertion (Hash E (engineWorld E w m maxSteps tb) m)
              (toUint32 (engineResult E w m maxSteps tb).numSteps) msgs logVals) := by
  unfold copiedOutMessages copiedLogs engineWorld
  unfold engineResult at h1 h2 ⊢
  unfold ExecuteAssertion
  simp only
  generalize E.machineExecuteAssertion w m.c (toUint64 maxSteps) (tb.1 % 2 ^ 64)
    (tb.2 % 2 ^ 64) = r at h1 h2 ⊢
  rw [GoBytes_of_nonneg _ _ h1, GoBytes_of_nonneg _ _ h2]
  simp only
  split
  · rfl
  · split
    · rfl
    · split <;> rfl

/-- What a returning `ExecuteAssertion` returns. -/
theorem ExecuteAssertion_ok (E : Engine W) (C : Codec Value Message Err) (w : W)
    (m : Machine) (maxSteps : Int) (tb : TimeBounds) (a : Assertion Value Message)
    (h : (ExecuteAssertion E C w m maxSteps tb).2 = .ok a) :
    0 ≤ (engineResult E w m maxSteps tb).outMessageLength ∧
    0 ≤ (engineResult E w m maxSteps tb).logLength ∧
    ∃ outVals msgs logVals,
      bytesArrayToVals C (copiedOutMessages E w m maxSteps tb)
        (engineResult E w m maxSteps tb).outMessageCount = .ok outVals ∧
      valsToMessages C outVals [] = .ok msgs ∧
      bytesArrayToVals C (copiedLogs E w m maxSteps tb)
        (engineResult E w m maxSteps tb).logCount = .ok logVals ∧
      a = NewAssertion (Hash E (engineWorld E w m maxSteps tb) m)
        (toUint32 (engineResult E w m maxSteps tb).numSteps) msgs logVals := by
  have h1 : 0 ≤ (engineResult E w m maxSteps tb).outMessageLength := by
    by_contra hc
    rw [ExecuteAssertion_of_neg_length E C w m maxSteps tb (Or.inl (not_le.1 hc))] at h
    cases h
  have h2 : 0 ≤ (engineResult E w m maxSteps tb).logLength := by
    by_contra hc
    rw [ExecuteAssertion_of_neg_length E C w m maxSteps tb (Or.inr (not_le.1 hc))] at h
    cases h
  refine ⟨h1, h2, ?_⟩
  rw [ExecuteAssertion_of_lengths E C w m maxSteps tb h1 h2] at h
  split at h
  · cases h
  · rename_i outVals hout
    split at h
    · cases h
    · rename_i msgs hmsgs
      split at h
      · cases h
      · rename_i logVals hlog
        simp only [Except.ok.injEq] at h
        exact ⟨outVals, msgs, logVals, hout, hmsgs, hlog, h.symm⟩

/-- When `ExecuteAssertion` panics. -/
theorem ExecuteAssertion_error_iff (E : Engine W) (C : Codec Value Message Err) (w : W)
    (m : Machine) (maxSteps : Int) (tb : TimeBounds) :
    (∃ p, (ExecuteAssertion E C w m maxSteps tb).2 = .error p) ↔
      ((engineResult E w m maxSteps tb).outMessageLength < 0 ∨
       (engineResult E w m maxSteps tb).logLength < 0 ∨
       (∃ e, bytesArrayToVals C (copiedOutMessages E w m maxSteps tb)
          (engineResult E w m maxSteps tb).outMessageCount = .error e) ∨
       (∃ outVals e, bytesArrayToVals C (copiedOutMessages E w m maxSteps tb)
          (engineResult E w m maxSteps tb).outMessageCount = .ok outVals ∧
          valsToMessages C outVals [] = .error e) ∨
       (∃ e, bytesArrayToVals C (copiedLogs E w m maxSteps tb)
          (engineResult E w m maxSteps tb).logCount = .error e)) := by
  by_cases h1 : (engineResult E w m maxSteps tb).outMessageLength < 0
  · rw [ExecuteAssertion_of_neg_length E C w m maxSteps tb (Or.inl h1)]
    simp [h1]
  by_cases h2 : (engineResult E w m maxSteps tb).logLength < 0
  · rw [ExecuteAssertion_of_neg_length E C w m maxSteps tb (Or.inr h2)]
    simp [h2]
  rw [ExecuteAssertion_of_lengths E C w m maxSteps tb (not_lt.1 h1) (not_lt.1 h2)]
  cases hout : bytesArrayToVals C (copiedOutMessages E w m maxSteps tb)
      (engineResult E w m maxSteps tb).outMessageCount with
  | error e => simp
  | ok outVals =>
    cases hmsgs : valsToMessages C outVals [] with
    | error e => simp [h1, h2, hmsgs]
    | ok msgs =>
      cases hlog : bytesArrayToVals C (copiedLogs E w m maxSteps tb)
          (engineResult E w m maxSteps tb).logCount with
      | error e => simp [h1, h2, hmsgs]
      | ok logVals => simp [h1, h2, hmsgs]

/-- The buffer of `marshalMsgs` is the starting buffer followed by the
marshalled values, in input order. -/
theorem marshalMsgs_chunks (C : Codec Value Message Err) :
    ∀ (msgs : List Message) (buf out : Bytes), marshalMsgs C msgs buf = .ok out →
      ∃ chunks : List Bytes,
        List.Forall₂ (fun msg bs => C.MarshalValue (C.AsValue msg) = .ok bs) msgs chunks ∧
        out = buf ++ chunks.flatten := by
  intro msgs
  induction msgs with
  | nil =>
    intro buf out h
    simp only [marshalMsgs, Except.ok.injEq] at h
    exact ⟨[], List.Forall₂.nil, by simp [h]⟩
  | cons msg rest ih =>
    intro buf out h
    unfold marshalMsgs at h
    cases hm : C.MarshalValue (C.AsValue msg) with
    | error e => simp [hm] at h
    | ok bs =>
      simp only [hm] at h
      obtain ⟨chunks, h1, h2⟩ := ih _ _ h
      exact ⟨bs :: chunks, List.Forall₂.cons hm h1, by simp [h2]⟩

/-- Decoding a concatenation of marshalled values gives the values back. -/
theorem firstDecoded_chunks (C : Codec Value Message Err) (hrt : readsBack C) :
    ∀ (msgs : List Message) (chunks : List Bytes),
      List.Forall₂ (fun msg bs => C.MarshalValue (C.AsValue msg) = .ok bs) msgs chunks →
      firstDecoded C msgs.length chunks.flatten = some (msgs.map C.AsValue) := by
  intro msgs chunks h
  induction h with
  | nil => rfl
  | cons hm _ ih =>
    rename_i msg bs msgs chunks
    simp only [List.length_cons, List.flatten_cons, List.map_cons]
    unfold firstDecoded
    rw [hrt _ _ _ hm]
    simp only [List.drop_left]
    rw [ih]

/-- A call on another handle of the heap leaves a live machine's cell alone,
and the machine stays live. -/
theorem heap_applyOp_frame {St : Type} (S : MachineSem St) (C : Codec Value Message Err)
    (h : Heap St) (c m : Machine) (op : Op Message) (hne : c.c ≠ m.c) (hlive : m.c < h.next) :
    (applyOp (heapEngine S) C h c op).cells m.c = h.cells m.c ∧
      m.c < (applyOp (heapEngine S) C h c op).next := by
  have hne2 : m.c ≠ c.c := Ne.symm hne
  have hne3 : m.c ≠ h.next := Nat.ne_of_lt hlive
  cases op with
  | sendOnchain msg =>
    show (SendOnchainMessage (heapEngine S) C h c msg).1.cells m.c = h.cells m.c ∧
      m.c < (SendOnchainMessage (heapEngine S) C h c msg).1.next
    unfold SendOnchainMessage
    split
    · exact ⟨rfl, hlive⟩
    · split
      · exact ⟨rfl, hlive⟩
      · exact ⟨by simp [heapEngine, Function.update, hne2], hlive⟩
  | deliver =>
    exact ⟨by simp [applyOp, DeliverOnchainMessage, heapEngine, Function.update, hne2], hlive⟩
  | sendOffchain msgs =>
    show (SendOffchainMessages (heapEngine S) C h c msgs).1.cells m.c = h.cells m.c ∧
      m.c < (SendOffchainMessages (heapEngine S) C h c msgs).1.next
    unfold SendOffchainMessages
    split
    · exact ⟨rfl, hlive⟩
    · split
      · exact ⟨by simp [heapEngine, Function.update, hne2], hlive⟩
      · exact ⟨rfl, hlive⟩
  | execute maxSteps tb =>
    show (ExecuteAssertion (heapEngine S) C h c maxSteps tb).1.cells m.c = h.cells m.c ∧
      m.c < (ExecuteAssertion (heapEngine S) C h c maxSteps tb).1.next
    rw [ExecuteAssertion_world]
    exact ⟨by simp [heapEngine, Function.update, hne2], hlive⟩
  | clone =>
    exact ⟨by simp [applyOp, Clone, heapEngine, Function.update, hne3],
      Nat.lt_succ_of_lt hlive⟩

theorem heap_applyOps_frame {St : Type} (S : MachineSem St) (C : Codec Value Message Err)
    (c m : Machine) (hne : c.c ≠ m.c) :
    ∀ (ops : List (Op Message)) (h : Heap St), m.c < h.next →
      (applyOps (heapEngine S) C h c ops).cells m.c = h.cells m.c := by
  intro ops
  induction ops with
  | nil => intro h _; rfl
  | cons op ops ih =>
    intro h hlive
    obtain ⟨h1, h2⟩ := heap_applyOp_frame S C h c m op hne hlive
    unfold applyOps
    rw [ih _ h2, h1]

end Lemmas

/-! ## The claims -/

section Claims

variable {W St Value Message Err : Type}

/-- C1: `SendOffchainMessages` with an empty message list returns without a
panic and leaves the native world, hence `Hash`, as it was; on the recording
engine no call is logged. -/
theorem SendOffchainMessages_nil_noop (E : Engine W) (C : Codec Value Message Err) (w : W)
    (m : Machine) :
    SendOffchainMessages E C w m [] = (w, .ok ()) ∧
    Hash E (SendOffchainMessages E C w m []).1 m = Hash E w m ∧
    ∀ log : List Call, (SendOffchainMessages recorder C log m []).1 = log := by
  refine ⟨rfl, rfl, fun log => rfl⟩

/-- C2 as stated fails: the engine result declares `outMessageCount = -1`,
`ExecuteAssertion` returns an assertion, and its message list has length 0,
not the declared count. -/
theorem outMsgs_length_counterexample :
    (engineResult (heapEngine sampleSem) (sampleHeap .Runnable (sampleScript [1] (-1) [] 0 0)) ⟨0⟩ 10
      (0, 0)).outMessageCount = -1 ∧
    ∃ a, (ExecuteAssertion (heapEngine sampleSem) sampleCodec
        (sampleHeap .Runnable (sampleScript [1] (-1) [] 0 0)) ⟨0⟩ 10 (0, 0)).2 = .ok a ∧
      a.OutMsgs.length = 0 ∧ (a.OutMsgs.length : Int) ≠ -1 :=
  ⟨rfl, _, rfl, rfl, by decide⟩

/-- C2, amended: when `ExecuteAssertion` returns, its messages are those of the
first `outMessageCount` values decoded in order from `outMessageData`, its
logs are the first `logCount` values decoded in order from `logData`, and the
two lists have lengths `max outMessageCount 0` and `max logCount 0`. -/
theorem ExecuteAssertion_outputs_in_order (E : Engine W) (C : Codec Value Message Err)
    (w : W) (m : Machine) (maxSteps : Int) (tb : TimeBounds) (a : Assertion Value Message)
    (h : (ExecuteAssertion E C w m maxSteps tb).2 = .ok a) :
    (∃ outVals,
      firstDecoded C (engineResult E w m maxSteps tb).outMessageCount.toNat
        (copiedOutMessages E w m maxSteps tb) = some outVals ∧
      messagesOf C outVals a.OutMsgs) ∧
    firstDecoded C (engineResult E w m maxSteps tb).logCount.toNat
      (copiedLogs E w m maxSteps tb) = some a.Logs ∧
    (a.OutMsgs.length : Int) = max (engineResult E w m maxSteps tb).outMessageCount 0 ∧
    (a.Logs.length : Int) = max (engineResult E w m maxSteps tb).logCount 0 := by
  obtain ⟨-, -, outVals, msgs, logVals, hout, hmsgs, hlog, ha⟩ :=
    ExecuteAssertion_ok E C w m maxSteps tb a h
  rw [bytesArrayToVals_ok_iff] at hout hlog
  obtain ⟨ms, hms, hof⟩ := valsToMessages_ok C outVals [] msgs hmsgs
  simp only [List.nil_append] at hms
  subst hms
  subst ha
  have hlen1 := firstDecoded_length C _ _ _ hout
  have hlen2 := firstDecoded_length C _ _ _ hlog
  have hlen3 := hof.length_eq
  refine ⟨⟨outVals, hout, hof⟩, hlog, ?_, ?_⟩
  · show ((msgs.length : Nat) : Int) = _
    rw [← hlen3, hlen1]
    unfold engineResult
    omega
  · show ((logVals.length : Nat) : Int) = _
    rw [hlen2]
    unfold engineResult
    omega

/-- Witness for C2, amended: a run emitting two messages and one log, with a
byte left over after the messages. -/
theorem ExecuteAssertion_outputs_in_order_witness :
    ∃ a : Assertion Byte Nat,
      (ExecuteAssertion (heapEngine sampleSem) sampleCodec
        (sampleHeap .Runnable (sampleScript [1, 2, 3] 2 [9] 1 5)) ⟨0⟩ 10 (0, 0)).2 = .ok a ∧
      a.OutMsgs = [1, 2] ∧ a.Logs = [9] ∧
      ((∃ outVals,
        firstDecoded sampleCodec
          (engineResult (heapEngine sampleSem) (sampleHeap .Runnable (sampleScript [1, 2, 3] 2 [9] 1 5))
            ⟨0⟩ 10 (0, 0)).outMessageCount.toNat
          (copiedOutMessages (heapEngine sampleSem)
            (sampleHeap .Runnable (sampleScript [1, 2, 3] 2 [9] 1 5)) ⟨0⟩ 10 (0, 0)) =
            some outVals ∧
        messagesOf sampleCodec outVals a.OutMsgs) ∧
      firstDecoded sampleCodec
        (engineResult (heapEngine sampleSem) (sampleHeap .Runnable (sampleScript [1, 2, 3] 2 [9] 1 5))
          ⟨0⟩ 10 (0, 0)).logCount.toNat
        (copiedLogs (heapEngine sampleSem)
          (sampleHeap .Runnable (sampleScript [1, 2, 3] 2 [9] 1 5)) ⟨0⟩ 10 (0, 0)) =
          some a.Logs ∧
      (a.OutMsgs.length : Int) =
        max (engineResult (heapEngine sampleSem)
          (sampleHeap .Runnable (sampleScript [1, 2, 3] 2 [9] 1 5)) ⟨0⟩ 10 (0, 0)).outMessageCount 0 ∧
      (a.Logs.length : Int) =
        max (engineResult (heapEngine sampleSem)
          (sampleHeap .Runnable (sampleScript [1, 2, 3] 2 [9] 1 5)) ⟨0⟩ 10 (0, 0)).logCount 0) :=
  ⟨_, rfl, rfl, rfl,
    ExecuteAssertion_outputs_in_order (heapEngine sampleSem) sampleCodec
      (sampleHeap .Runnable (sampleScript [1, 2, 3] 2 [9] 1 5)) ⟨0⟩ 10 (0, 0) _ rfl⟩

/-- C3 as stated fails: the sample engine never exceeds the bound it is
handed, `maxSteps = -1` is an `int32`, the engine is handed `2^64 - 1` and runs
5 steps, and the assertion reports 5 steps, more than `maxSteps`. -/
theorem stepsExecuted_negative_maxSteps_counterexample :
    respectsBound (heapEngine sampleSem) ∧ isInt32 (-1) ∧
    ∃ a, (ExecuteAssertion (heapEngine sampleSem) sampleCodec
        (sampleHeap .Runnable (sampleScript [] 0 [] 0 5)) ⟨0⟩ (-1) (0, 0)).2 = .ok a ∧
      a.NumSteps = 5 ∧ ¬ ((a.NumSteps : Int) ≤ -1) :=
  ⟨fun _ _ bound _ _ => Nat.min_le_left bound _, by decide, _, rfl, rfl, by decide⟩

/-- C3, amended: for an `int32` `maxSteps` that is not negative, and an engine
that never executes more steps than the bound it is handed, the assertion
`ExecuteAssertion` returns has `NumSteps ≤ maxSteps`. -/
theorem stepsExecuted_le_maxSteps (E : Engine W) (hE : respectsBound E)
    (C : Codec Value Message Err) (w : W) (m : Machine) (maxSteps : Int) (tb : TimeBounds)
    (hrange : isInt32 maxSteps) (hpos : 0 ≤ maxSteps) (a : Assertion Value Message)
    (h : (ExecuteAssertion E C w m maxSteps tb).2 = .ok a) :
    (a.NumSteps : Int) ≤ maxSteps := by
  obtain ⟨-, -, outVals, msgs, logVals, -, -, -, ha⟩ :=
    ExecuteAssertion_ok E C w m maxSteps tb a h
  subst ha
  have hb := hE w m.c (toUint64 maxSteps) (tb.1 % 2 ^ 64) (tb.2 % 2 ^ 64)
  show ((toUint32 (engineResult E w m maxSteps tb).numSteps : Nat) : Int) ≤ maxSteps
  unfold engineResult
  generalize (E.machineExecuteAssertion w m.c (toUint64 maxSteps) (tb.1 % 2 ^ 64)
    (tb.2 % 2 ^ 64)).2.numSteps = n at hb ⊢
  rw [toUint64_of_nonneg maxSteps hrange hpos] at hb
  unfold toUint32
  have := Nat.mod_le n (2 ^ 32)
  omega

/-- Witness for C3, amended: `maxSteps = 3` on a machine that would run 5
steps reports 3. -/
theorem stepsExecuted_le_maxSteps_witness :
    ∃ a : Assertion Byte Nat,
      (ExecuteAssertion (heapEngine sampleSem) sampleCodec
        (sampleHeap .Runnable (sampleScript [] 0 [] 0 5)) ⟨0⟩ 3 (0, 0)).2 = .ok a ∧
      a.NumSteps = 3 ∧ (a.NumSteps : Int) ≤ 3 :=
  ⟨_, rfl, rfl,
    stepsExecuted_le_maxSteps (heapEngine sampleSem)
      (fun _ _ bound _ _ => Nat.min_le_left bound _) sampleCodec
      (sampleHeap .Runnable (sampleScript [] 0 [] 0 5)) ⟨0⟩ 3 (0, 0) (by decide) (by decide) _ rfl⟩

/-- C4 as stated fails: on a Halted machine `MarshalForProof` returns the
engine's bytes and a nil error. -/
theorem MarshalForProof_halted_counterexample :
    ((sampleHeap .Halted (sampleScript [] 0 [] 0 0)).cells 0).status = .Halted ∧
    (MarshalForProof (heapEngine sampleSem) (sampleHeap .Halted (sampleScript [] 0 [] 0 0)) ⟨0⟩ :
      Except (Panic SampleErr) (Bytes × Option SampleErr)) = .ok ([7], none) :=
  ⟨rfl, rfl⟩

/-- C4, amended: `MarshalForProof` never returns an error, whatever the state
of the machine: whenever it returns, the error is nil and the bytes are the
first `length` bytes of the engine's proof buffer. -/
theorem MarshalForProof_never_errors (E : Engine W) (w : W) (m : Machine) (bytes : Bytes)
    (err : Option Err) (h : MarshalForProof E w m = .ok (bytes, err)) :
    err = none ∧
    bytes = (E.machineMarshallForProof w m.c).data.take
      (E.machineMarshallForProof w m.c).length.toNat := by
  unfold MarshalForProof at h
  simp only at h
  by_cases hneg : (E.machineMarshallForProof w m.c).length < 0
  · rw [GoBytes_of_neg _ _ hneg] at h
    cases h
  · rw [GoBytes_of_nonneg _ _ (not_lt.1 hneg)] at h
    simp only [Except.ok.injEq, Prod.mk.injEq] at h
    exact ⟨h.2.symm, h.1.symm⟩

/-- Witness for C4, amended: the Halted machine of the counterexample. -/
theorem MarshalForProof_never_errors_witness :
    (MarshalForProof (heapEngine sampleSem) (sampleHeap .Halted (sampleScript [] 0 [] 0 0)) ⟨0⟩ :
      Except (Panic SampleErr) (Bytes × Option SampleErr)) = .ok ([7], none) ∧
    ((none : Option SampleErr) = none ∧
      ([7] : Bytes) =
        ((heapEngine sampleSem).machineMarshallForProof
          (sampleHeap .Halted (sampleScript [] 0 [] 0 0)) 0).data.take
        ((heapEngine sampleSem).machineMarshallForProof
          (sampleHeap .Halted (sampleScript [] 0 [] 0 0)) 0).length.toNat) :=
  ⟨rfl, MarshalForProof_never_errors (heapEngine sampleSem)
    (sampleHeap .Halted (sampleScript [] 0 [] 0 0)) ⟨0⟩ [7] none rfl⟩

/-- C5: the `AfterHash` of the assertion `ExecuteAssertion` returns is the
hash of the machine in the world the call leaves, the value `Hash` returns
right after the call. -/
theorem afterHash_is_final_hash (E : Engine W) (C : Codec Value Message Err) (w : W)
    (m : Machine) (maxSteps : Int) (tb : TimeBounds) (a : Assertion Value Message)
    (h : (ExecuteAssertion E C w m maxSteps tb).2 = .ok a) :
    a.AfterHash = Hash E (ExecuteAssertion E C w m maxSteps tb).1 m := by
  obtain ⟨-, -, outVals, msgs, logVals, -, -, -, ha⟩ :=
    ExecuteAssertion_ok E C w m maxSteps tb a h
  subst ha
  rw [ExecuteAssertion_world]
  rfl

/-- Witness for C5: a five-step run from step counter 7 reports the hash of
counter 12, which differs from the hash before the run. -/
theorem afterHash_is_final_hash_witness :
    ∃ a : Assertion Byte Nat,
      (ExecuteAssertion (heapEngine sampleSem) sampleCodec
        (sampleHeap .Runnable (sampleScript [1] 1 [] 0 5)) ⟨0⟩ 10 (0, 0)).2 = .ok a ∧
      a.AfterHash.1 = List.replicate 32 12 ∧
      (Hash (heapEngine sampleSem) (sampleHeap .Runnable (sampleScript [1] 1 [] 0 5)) ⟨0⟩).1 =
        List.replicate 32 7 ∧
      a.AfterHash = Hash (heapEngine sampleSem)
        (ExecuteAssertion (heapEngine sampleSem) sampleCodec
          (sampleHeap .Runnable (sampleScript [1] 1 [] 0 5)) ⟨0⟩ 10 (0, 0)).1 ⟨0⟩ :=
  ⟨_, rfl, rfl, rfl,
    afterHash_is_final_hash (heapEngine sampleSem) sampleCodec
      (sampleHeap .Runnable (sampleScript [1] 1 [] 0 5)) ⟨0⟩ 10 (0, 0) _ rfl⟩

/-- C6 as stated fails: the engine runs 3 steps and declares one out-message
over an empty buffer; `ExecuteAssertion` panics with the decode error, and the
hash of the machine after the panic differs from the hash before the call. -/
theorem decode_failure_state_counterexample :
    (ExecuteAssertion (heapEngine sampleSem) sampleCodec
      (sampleHeap .Runnable (sampleScript [] 1 [] 0 3)) ⟨0⟩ 10 (0, 0)).2 = .error (.err .eof) ∧
    (Hash (heapEngine sampleSem) (sampleHeap .Runnable (sampleScript [] 1 [] 0 3)) ⟨0⟩).1 =
      List.replicate 32 7 ∧
    (Hash (heapEngine sampleSem)
      (ExecuteAssertion (heapEngine sampleSem) sampleCodec
        (sampleHeap .Runnable (sampleScript [] 1 [] 0 3)) ⟨0⟩ 10 (0, 0)).1 ⟨0⟩).1 =
      List.replicate 32 10 ∧
    Hash (heapEngine sampleSem)
      (ExecuteAssertion (heapEngine sampleSem) sampleCodec
        (sampleHeap .Runnable (sampleScript [] 1 [] 0 3)) ⟨0⟩ 10 (0, 0)).1 ⟨0⟩ ≠
      Hash (heapEngine sampleSem) (sampleHeap .Runnable (sampleScript [] 1 [] 0 3)) ⟨0⟩ :=
  ⟨rfl, rfl, rfl, by decide⟩

/-- C6, amended: if a decode that `ExecuteAssertion` performs on the copied
out-message or log bytes fails with error `e` (the out-message decode, or the
log decode once the out-messages are decoded and accepted), the call panics
with `e`, and the world it leaves is the one the engine's run produced:
`Hash` afterwards is the hash of the machine after the run. -/
theorem decode_failure_panics_after_run (E : Engine W) (C : Codec Value Message Err) (w : W)
    (m : Machine) (maxSteps : Int) (tb : TimeBounds) (e : Err)
    (hout : 0 ≤ (engineResult E w m maxSteps tb).outMessageLength)
    (hlog : 0 ≤ (engineResult E w m maxSteps tb).logLength)
    (hfail :
      decodeFailsWith C (engineResult E w m maxSteps tb).outMessageCount.toNat
        (copiedOutMessages E w m maxSteps tb) e ∨
      (¬ decodeFails C (engineResult E w m maxSteps tb).outMessageCount.toNat
          (copiedOutMessages E w m maxSteps tb) ∧
        ¬ messageRejected C (engineResult E w m maxSteps tb).outMessageCount.toNat
          (copiedOutMessages E w m maxSteps tb) ∧
        decodeFailsWith C (engineResult E w m maxSteps tb).logCount.toNat
          (copiedLogs E w m maxSteps tb) e)) :
    (ExecuteAssertion E C w m maxSteps tb).2 = .error (.err e) ∧
    (ExecuteAssertion E C w m maxSteps tb).1 = engineWorld E w m maxSteps tb ∧
    Hash E (ExecuteAssertion E C w m maxSteps tb).1 m =
      E.machineHash (engineWorld E w m maxSteps tb) m.c := by
  refine ⟨?_, ExecuteAssertion_world E C w m maxSteps tb, ?_⟩
  · rw [ExecuteAssertion_of_lengths E C w m maxSteps tb hout hlog]
    rcases hfail with h | ⟨hnf, hnr, h⟩
    · rw [(bytesArrayToVals_error_with_iff C _ _ e).2 h]
    · cases hb : bytesArrayToVals C (copiedOutMessages E w m maxSteps tb)
          (engineResult E w m maxSteps tb).outMessageCount with
      | error e1 => exact absurd ((bytesArrayToVals_error_iff C _ _).1 ⟨e1, hb⟩) hnf
      | ok outVals =>
        simp only
        cases hm : valsToMessages C outVals [] with
        | error e1 =>
          obtain ⟨v, e2, hv, he⟩ := (valsToMessages_error_iff C outVals []).1 ⟨e1, hm⟩
          exact absurd ⟨outVals, v, e2, (bytesArrayToVals_ok_iff C _ _ _).1 hb, hv, he⟩ hnr
        | ok msgs =>
          simp only
          rw [(bytesArrayToVals_error_with_iff C _ _ e).2 h]
  · rw [ExecuteAssertion_world]
    rfl

/-- Witness for C6, amended: the run of the counterexample, whose first
out-message decode reads an empty buffer and fails with `eof`. -/
theorem decode_failure_panics_after_run_witness :
    (ExecuteAssertion (heapEngine sampleSem) sampleCodec
      (sampleHeap .Runnable (sampleScript [] 1 [] 0 3)) ⟨0⟩ 10 (0, 0)).2 = .error (.err .eof) ∧
    (ExecuteAssertion (heapEngine sampleSem) sampleCodec
      (sampleHeap .Runnable (sampleScript [] 1 [] 0 3)) ⟨0⟩ 10 (0, 0)).1 =
      engineWorld (heapEngine sampleSem) (sampleHeap .Runnable (sampleScript [] 1 [] 0 3)) ⟨0⟩
        10 (0, 0) ∧
    Hash (heapEngine sampleSem)
      (ExecuteAssertion (heapEngine sampleSem) sampleCodec
        (sampleHeap .Runnable (sampleScript [] 1 [] 0 3)) ⟨0⟩ 10 (0, 0)).1 ⟨0⟩ =
      (heapEngine sampleSem).machineHash
        (engineWorld (heapEngine sampleSem) (sampleHeap .Runnable (sampleScript [] 1 [] 0 3))
          ⟨0⟩ 10 (0, 0)) 0 :=
  decode_failure_panics_after_run (heapEngine sampleSem) sampleCodec
    (sampleHeap .Runnable (sampleScript [] 1 [] 0 3)) ⟨0⟩ 10 (0, 0) .eof
    (by decide) (by decide) (Or.inl ⟨0, [], by decide, rfl, rfl⟩)

/-- C7: on the heap of independent machines, for a live machine `m`, the
clone has the hash of `m`, cloning leaves the cell and the hash of `m` as they
were, and no sequence of calls on the clone (sending or delivering messages,
`ExecuteAssertion`, further cloning) changes the hash of `m`. -/
theorem clone_independent (S : MachineSem St) (C : Codec Value Message Err) (h : Heap St)
    (m : Machine) (hlive : m.c < h.next) :
    Hash (heapEngine S) (Clone (heapEngine S) h m).1 (Clone (heapEngine S) h m).2 =
      Hash (heapEngine S) h m ∧
    (Clone (heapEngine S) h m).1.cells m.c = h.cells m.c ∧
    Hash (heapEngine S) (Clone (heapEngine S) h m).1 m = Hash (heapEngine S) h m ∧
    ∀ ops : List (Op Message),
      Hash (heapEngine S)
        (applyOps (heapEngine S) C (Clone (heapEngine S) h m).1 (Clone (heapEngine S) h m).2
          ops) m = Hash (heapEngine S) h m := by
  have hne : m.c ≠ h.next := Nat.ne_of_lt hlive
  have hcell : (Clone (heapEngine S) h m).1.cells m.c = h.cells m.c := by
    simp [Clone, heapEngine, Function.update, hne]
  refine ⟨?_, hcell, ?_, ?_⟩
  · simp [Hash, Clone, heapEngine, Function.update]
  · show S.hash ((Clone (heapEngine S) h m).1.cells m.c) = S.hash (h.cells m.c)
    rw [hcell]
  · intro ops
    show S.hash ((applyOps (heapEngine S) C (Clone (heapEngine S) h m).1
      (Clone (heapEngine S) h m).2 ops).cells m.c) = S.hash (h.cells m.c)
    rw [heap_applyOps_frame S C (Clone (heapEngine S) h m).2 m (Ne.symm hne) ops _
      (Nat.lt_succ_of_lt hlive), hcell]

/-- Witness for C7: machine 0 of the sample heap is cloned to handle 4; two
messages are sent to the clone, which then runs 5 steps and is cloned again;
the clone's hash moves from counter 7 to 14 and the original's stays at 7. -/
theorem clone_independent_witness :
    (Clone (heapEngine sampleSem) (sampleHeap .Runnable (sampleScript [] 0 [] 0 5)) ⟨0⟩).2 = ⟨4⟩ ∧
    (Hash (heapEngine sampleSem)
      (applyOps (heapEngine sampleSem) sampleCodec
        (Clone (heapEngine sampleSem) (sampleHeap .Runnable (sampleScript [] 0 [] 0 5)) ⟨0⟩).1 ⟨4⟩
        [.sendOnchain 1, .sendOffchain [2, 3], .execute 10 (0, 0), .clone]) ⟨4⟩).1 =
      List.replicate 32 14 ∧
    (Hash (heapEngine sampleSem) (sampleHeap .Runnable (sampleScript [] 0 [] 0 5)) ⟨0⟩).1 =
      List.replicate 32 7 ∧
    Hash (heapEngine sampleSem)
      (applyOps (heapEngine sampleSem) sampleCodec
        (Clone (heapEngine sampleSem) (sampleHeap .Runnable (sampleScript [] 0 [] 0 5)) ⟨0⟩).1
        (Clone (heapEngine sampleSem) (sampleHeap .Runnable (sampleScript [] 0 [] 0 5)) ⟨0⟩).2
        [.sendOnchain 1, .sendOffchain [2, 3], .execute 10 (0, 0), .clone]) ⟨0⟩ =
      Hash (heapEngine sampleSem) (sampleHeap .Runnable (sampleScript [] 0 [] 0 5)) ⟨0⟩ :=
  ⟨rfl, rfl, rfl,
    (clone_independent sampleSem sampleCodec (sampleHeap .Runnable (sampleScript [] 0 [] 0 5)) ⟨0⟩
      (by decide)).2.2.2 [.sendOnchain 1, .sendOffchain [2, 3], .execute 10 (0, 0), .clone]⟩

/-- C8: when `UnmarshalValue` reads back what `MarshalValue` wrote, the buffer
`SendOffchainMessages` builds from `msgs` is the concatenation, in input
order, of the marshalled values, it is the buffer handed to the engine when
not empty, and `bytesArrayToVals` with count `len(msgs)` decodes it to the
values of the messages in the same order. -/
theorem batch_roundtrip (C : Codec Value Message Err) (hrt : readsBack C)
    (msgs : List Message) (buf : Bytes) (hbuf : marshalMsgs C msgs [] = .ok buf) :
    (∃ chunks : List Bytes,
      List.Forall₂ (fun msg bs => C.MarshalValue (C.AsValue msg) = .ok bs) msgs chunks ∧
      buf = chunks.flatten) ∧
    (∀ m : Machine, buf ≠ [] →
      (SendOffchainMessages recorder C [] m msgs).1 =
        [Call.sendOffchain m.c buf (toCInt msgs.length)]) ∧
    bytesArrayToVals C buf msgs.length = .ok (msgs.map C.AsValue) := by
  obtain ⟨chunks, h1, h2⟩ := marshalMsgs_chunks C msgs [] buf hbuf
  simp only [List.nil_append] at h2
  refine ⟨⟨chunks, h1, h2⟩, ?_, ?_⟩
  · intro m hne
    unfold SendOffchainMessages
    rw [hbuf]
    have hpos : buf.length > 0 := List.length_pos.2 hne
    simp [hpos, recorder]
  · rw [bytesArrayToVals_ok_iff, Int.toNat_ofNat, h2]
    exact firstDecoded_chunks C hrt msgs chunks h1

/-- Witness for C8: three one-byte messages. -/
theorem batch_roundtrip_witness :
    marshalMsgs sampleCodec [5, 6, 7] [] = .ok [5, 6, 7] ∧
    ((∃ chunks : List Bytes,
      List.Forall₂ (fun msg bs => sampleCodec.MarshalValue (sampleCodec.AsValue msg) = .ok bs)
        [5, 6, 7] chunks ∧
      ([5, 6, 7] : Bytes) = chunks.flatten) ∧
    (∀ m : Machine, ([5, 6, 7] : Bytes) ≠ [] →
      (SendOffchainMessages recorder sampleCodec [] m [5, 6, 7]).1 =
        [Call.sendOffchain m.c [5, 6, 7] (toCInt ([5, 6, 7] : List Nat).length)]) ∧
    bytesArrayToVals sampleCodec [5, 6, 7] ([5, 6, 7] : List Nat).length =
      .ok (([5, 6, 7] : List Nat).map sampleCodec.AsValue)) :=
  ⟨rfl, batch_roundtrip sampleCodec (fun _ _ _ hm => by cases hm; rfl) [5, 6, 7] [5, 6, 7] rfl⟩

/-- C9 as stated fails: the engine declares no out-message and no log, so
none of the three conditions holds, but it reports an out-message length of
-1 and `ExecuteAssertion` panics in `C.GoBytes`. -/
theorem panic_on_negative_length_counterexample :
    (ExecuteAssertion (heapEngine sampleSem) sampleCodec
      (sampleHeap .Runnable ⟨[], -1, 0, [], 0, 0, 0⟩) ⟨0⟩ 10 (0, 0)).2 =
      .error .gobytesLengthOutOfRange ∧
    ¬ decodeFails sampleCodec
      (engineResult (heapEngine sampleSem) (sampleHeap .Runnable ⟨[], -1, 0, [], 0, 0, 0⟩)
        ⟨0⟩ 10 (0, 0)).outMessageCount.toNat
      (engineResult (heapEngine sampleSem) (sampleHeap .Runnable ⟨[], -1, 0, [], 0, 0, 0⟩)
        ⟨0⟩ 10 (0, 0)).outMessageData ∧
    ¬ messageRejected sampleCodec
      (engineResult (heapEngine sampleSem) (sampleHeap .Runnable ⟨[], -1, 0, [], 0, 0, 0⟩)
        ⟨0⟩ 10 (0, 0)).outMessageCount.toNat
      (engineResult (heapEngine sampleSem) (sampleHeap .Runnable ⟨[], -1, 0, [], 0, 0, 0⟩)
        ⟨0⟩ 10 (0, 0)).outMessageData ∧
    ¬ decodeFails sampleCodec
      (engineResult (heapEngine sampleSem) (sampleHeap .Runnable ⟨[], -1, 0, [], 0, 0, 0⟩)
        ⟨0⟩ 10 (0, 0)).logCount.toNat
      (engineResult (heapEngine sampleSem) (sampleHeap .Runnable ⟨[], -1, 0, [], 0, 0, 0⟩)
        ⟨0⟩ 10 (0, 0)).logData := by
  refine ⟨rfl, ?_, ?_, ?_⟩
  · rintro ⟨i, _, _, hi, _, _⟩
    exact Nat.not_lt_zero i hi
  · rintro ⟨vals, v, _, h, hv, _⟩
    have hnil : vals = [] := (Option.some.inj h).symm
    rw [hnil] at hv
    exact List.not_mem_nil v hv
  · rintro ⟨i, _, _, hi, _, _⟩
    exact Nat.not_lt_zero i hi

/-- C9, amended: `ExecuteAssertion` panics exactly when the engine reports a
negative `outMessageLength` or `logLength`, or one of the first
`outMessageCount` sequential decodes of the copied out-message bytes fails, or
one of the decoded values is rejected by `NewMessageFromValue`, or one of the
first `logCount` sequential decodes of the copied log bytes fails, and
otherwise returns an assertion; `bytesArrayToVals` returns the decoded values
whatever bytes are left unread, and for a count that is zero or negative it
returns the empty list with the reader untouched. -/
theorem ExecuteAssertion_panics_iff (E : Engine W) (C : Codec Value Message Err) (w : W)
    (m : Machine) (maxSteps : Int) (tb : TimeBounds) :
    ((∃ p, (ExecuteAssertion E C w m maxSteps tb).2 = .error p) ↔
      ((engineResult E w m maxSteps tb).outMessageLength < 0 ∨
        (engineResult E w m maxSteps tb).logLength < 0 ∨
        decodeFails C (engineResult E w m maxSteps tb).outMessageCount.toNat
          (copiedOutMessages E w m maxSteps tb) ∨
        messageRejected C (engineResult E w m maxSteps tb).outMessageCount.toNat
          (copiedOutMessages E w m maxSteps tb) ∨
        decodeFails C (engineResult E w m maxSteps tb).logCount.toNat
          (copiedLogs E w m maxSteps tb))) ∧
    ((¬ ∃ p, (ExecuteAssertion E C w m maxSteps tb).2 = .error p) →
      ∃ a, (ExecuteAssertion E C w m maxSteps tb).2 = .ok a) ∧
    (∀ (data rest : Bytes) (n : Int) (vals : List Value),
      readVals C n.toNat data [] = .ok (vals, rest) → bytesArrayToVals C data n = .ok vals) ∧
    (∀ (data : Bytes) (n : Int), n ≤ 0 →
      readVals C n.toNat data [] = .ok ([], data) ∧ bytesArrayToVals C data n = .ok []) := by
  refine ⟨?_, ?_, ?_, ?_⟩
  · rw [ExecuteAssertion_error_iff, bytesArrayToVals_error_iff, bytesArrayToVals_error_iff]
    unfold messageRejected
    constructor
    · rintro (h | h | h | ⟨outVals, e, h1, h2⟩ | h)
      · exact Or.inl h
      · exact Or.inr (Or.inl h)
      · exact Or.inr (Or.inr (Or.inl h))
      · rw [bytesArrayToVals_ok_iff] at h1
        obtain ⟨v, e1, hv, he⟩ := (valsToMessages_error_iff C outVals []).1 ⟨e, h2⟩
        exact Or.inr (Or.inr (Or.inr (Or.inl ⟨outVals, v, e1, h1, hv, he⟩)))
      · exact Or.inr (Or.inr (Or.inr (Or.inr h)))
    · rintro (h | h | h | ⟨outVals, v, e1, h1, hv, he⟩ | h)
      · exact Or.inl h
      · exact Or.inr (Or.inl h)
      · exact Or.inr (Or.inr (Or.inl h))
      · obtain ⟨e, h2⟩ := (valsToMessages_error_iff C outVals []).2 ⟨v, e1, hv, he⟩
        exact Or.inr (Or.inr (Or.inr (Or.inl
          ⟨outVals, e, (bytesArrayToVals_ok_iff C _ _ _).2 h1, h2⟩)))
      · exact Or.inr (Or.inr (Or.inr (Or.inr h)))
  · intro hno
    cases hr : (ExecuteAssertion E C w m maxSteps tb).2 with
    | error p => exact absurd ⟨p, hr⟩ hno
    | ok a => exact ⟨a, rfl⟩
  · intro data rest n vals h
    unfold bytesArrayToVals
    rw [h]
  · intro data n hn
    have h0 : n.toNat = 0 := Int.toNat_eq_zero.2 hn
    unfold bytesArrayToVals
    rw [h0]
    exact ⟨rfl, rfl⟩

/-- C10: for an `int32` `maxSteps`, the step bound handed to the engine is
`maxSteps` when `maxSteps ≥ 0` and `2^64 + maxSteps` when `maxSteps < 0`; the
`NumSteps` of the returned assertion is the engine's `numSteps` modulo
`2^32`; and when `0 ≤ maxSteps` and the engine's `numSteps ≤ maxSteps`, it is
the engine's `numSteps` itself. -/
theorem ExecuteAssertion_conversions (E : Engine W) (C : Codec Value Message Err) (w : W)
    (m : Machine) (maxSteps : Int) (tb : TimeBounds) (hrange : isInt32 maxSteps) :
    ((stepBound maxSteps : Int) = if 0 ≤ maxSteps then maxSteps else 2 ^ 64 + maxSteps) ∧
    (ExecuteAssertion E C w m maxSteps tb).1 =
      (E.machineExecuteAssertion w m.c (stepBound maxSteps) (tb.1 % 2 ^ 64) (tb.2 % 2 ^ 64)).1 ∧
    (∀ log : List Call, (ExecuteAssertion recorder C log m maxSteps tb).1 =
      log ++ [Call.execute m.c (stepBound maxSteps) (tb.1 % 2 ^ 64) (tb.2 % 2 ^ 64)]) ∧
    (∀ a, (ExecuteAssertion E C w m maxSteps tb).2 = .ok a →
      a.NumSteps = (engineResult E w m maxSteps tb).numSteps % 2 ^ 32) ∧
    (0 ≤ maxSteps → ((engineResult E w m maxSteps tb).numSteps : Int) ≤ maxSteps →
      ∀ a, (ExecuteAssertion E C w m maxSteps tb).2 = .ok a →
        a.NumSteps = (engineResult E w m maxSteps tb).numSteps) := by
  have hsb : toUint64 maxSteps = stepBound maxSteps := by
    unfold stepBound
    by_cases hpos : 0 ≤ maxSteps
    · rw [if_pos hpos]; exact toUint64_of_nonneg maxSteps hrange hpos
    · rw [if_neg hpos]; exact toUint64_of_neg maxSteps hrange (by omega)
  have hnum : ∀ a, (ExecuteAssertion E C w m maxSteps tb).2 = .ok a →
      a.NumSteps = (engineResult E w m maxSteps tb).numSteps % 2 ^ 32 := by
    intro a h
    obtain ⟨-, -, outVals, msgs, logVals, -, -, -, ha⟩ :=
      ExecuteAssertion_ok E C w m maxSteps tb a h
    subst ha
    rfl
  refine ⟨?_, ?_, ?_, hnum, ?_⟩
  · unfold stepBound
    unfold isInt32 at hrange
    split <;> omega
  · rw [ExecuteAssertion_world, hsb]
  · intro log
    rw [ExecuteAssertion_world, hsb]
    rfl
  · intro hpos hle a h
    rw [hnum a h]
    apply Nat.mod_eq_of_lt
    unfold isInt32 at hrange
    omega

/-- Witness for C10: `maxSteps = -1` hands the engine `2^64 - 1`, and an
engine count of `2^32 + 5` steps is reported as 5. -/
theorem ExecuteAssertion_conversions_witness :
    stepBound (-1) = 2 ^ 64 - 1 ∧
    (∃ a : Assertion Byte Nat,
      (ExecuteAssertion (heapEngine sampleSem) sampleCodec
        (sampleHeap .Runnable (sampleScript [] 0 [] 0 (2 ^ 32 + 5))) ⟨0⟩ (-1) (0, 0)).2 = .ok a ∧
      a.NumSteps = 5) ∧
    (ExecuteAssertion recorder sampleCodec [] ⟨0⟩ (-1) (0, 0)).1 =
      [] ++ [Call.execute 0 (stepBound (-1)) (0 % 2 ^ 64) (0 % 2 ^ 64)] :=
  ⟨by decide, ⟨_, rfl, rfl⟩,
    (ExecuteAssertion_conversions recorder sampleCodec [] ⟨0⟩ (-1) (0, 0) (by decide)).2.2.1 []⟩

end Claims

end cmachine
